import Mathlib

/-!
Verification development for the block-storage layer of
`src/src/storage/postgresql_storage.cpp`.

The file shallowly embeds the parts of the source the claims are about:

* the `blocks` table rows and the `organize_blockchain` pass
  (lines 203-289 of the source),
* the byte-array/hex-string helpers `serialize_bytes` and
  `deserialize_bytes` (lines 13-34),
* the relational insertion path of `store(net::message::block, ...)`
  (lines 156-196) together with the row-insertion helpers it calls.

Machine integers of the source (`size_t`, byte values, serial ids) are
modelled as `Nat`; SQL `NULL`-able columns are modelled as `Option Nat`;
`std::string` is modelled as `List Nat` of byte values (C++ `char`s).
-/

/-! ## Data model: one row of the `blocks` table

Columns used by `organize_blockchain`: `block_id` (SERIAL), `block_hash`,
`prev_block_hash`, and the organizer-managed nullable columns `depth`,
`span_left`, `span_right`.  Hash strings are abstracted to `Nat` keys,
since the organizer only ever compares them for equality. -/

structure BlockRecord where
  blockId : Nat
  hash : Nat
  prevHash : Nat
  depth : Option Nat
  spanLeft : Option Nat
  spanRight : Option Nat
deriving DecidableEq

/-- The parent lookup of the organizer (source lines 217-228):
`SELECT ... FROM blocks WHERE block_hash=? AND depth IS NOT NULL`,
fetching the first row if any. -/
def findLinkedParent (s : List BlockRecord) (ph : Nat) : Option BlockRecord :=
  s.find? (fun r => r.hash == ph && r.depth.isSome)

/-- The row predicate of the fork check (source lines 236-247):
`span_left >= pl AND span_right <= pr AND depth > pd`.  In SQL a
comparison against a `NULL` column is not satisfied, so rows with any of
the three columns unset never match. -/
def descendantTest (pl pr pd : Nat) (r : BlockRecord) : Bool :=
  match r.spanLeft, r.spanRight, r.depth with
  | some l, some rr, some d => decide (pl ≤ l) && decide (rr ≤ pr) && decide (pd < d)
  | _, _, _ => false

/-- The fork check `SELECT 1 FROM blocks WHERE ... LIMIT 1` (source
lines 236-248): true iff some row satisfies `descendantTest`. -/
def hasDescendant (s : List BlockRecord) (pl pr pd : Nat) : Bool :=
  s.any (descendantTest pl pr pd)

/-- Effect of one allocator `UPDATE` on one span column (source lines
256-267): `SET span=span+1 WHERE span >= slot`.  A `NULL` column fails
the `WHERE` clause and is untouched. -/
def shiftSpan (slot : Nat) : Option Nat → Option Nat
  | some v => if slot ≤ v then some (v + 1) else some v
  | none => none

/-- Effect of the two allocator `UPDATE`s (run in one transaction,
source lines 255-268) on one row: both span columns are shifted, all
other columns are untouched. -/
def shiftRecord (slot : Nat) (r : BlockRecord) : BlockRecord :=
  { r with spanLeft := shiftSpan slot r.spanLeft,
           spanRight := shiftSpan slot r.spanRight }

/-- Effect of the no-fork `UPDATE blocks SET depth=?, span_left=?,
span_right=? WHERE block_id=?` (source lines 275-286) on one row. -/
def linkRecord (bid d c : Nat) (r : BlockRecord) : BlockRecord :=
  if r.blockId == bid then
    { r with depth := some d, spanLeft := some c, spanRight := some c }
  else r

/-- One iteration of the `while (res.next())` loop of
`organize_blockchain` (source lines 212-288), for the snapshot row
`(bid, ph) = (block_id, prev_block_hash)`: look up a linked parent
(skip the row if there is none), read its `depth`/`span_left`/
`span_right` (the source reads them as non-null `size_t`; `getD 0`
stands for that read, and is only exercised on rows whose three columns
are set together), then either run the allocator shift with
`slot = parent_span_right` (fork branch) or link the row with
`depth = parent_depth + 1` and chain id `parent_span_left` (no-fork
branch; the source's `BITCOIN_ASSERT(parent_span_left ==
parent_span_right)` there is proved separately to hold on reachable
states). -/
def organizeStep (s : List BlockRecord) (bid ph : Nat) : List BlockRecord :=
  match findLinkedParent s ph with
  | none => s
  | some p =>
    if hasDescendant s (p.spanLeft.getD 0) (p.spanRight.getD 0) (p.depth.getD 0) = true then
      List.map (shiftRecord (p.spanRight.getD 0)) s
    else
      List.map (linkRecord bid (p.depth.getD 0 + 1) (p.spanLeft.getD 0)) s

/-- Insertion into a list kept sorted by `blockId`. -/
def insertById (r : BlockRecord) : List BlockRecord → List BlockRecord
  | [] => [r]
  | x :: xs => if r.blockId ≤ x.blockId then r :: x :: xs else x :: insertById r xs

/-- Sorting by `blockId`, modelling the `ORDER BY block_id ASC` of the
snapshot query. -/
def sortByBlockId : List BlockRecord → List BlockRecord
  | [] => []
  | x :: xs => insertById x (sortByBlockId xs)

/-- The snapshot query of the organizer (source lines 205-211):
`SELECT block_id, prev_block_hash FROM blocks WHERE depth IS NULL ORDER
BY block_id ASC`.  The result set is materialised before the loop body
runs, so later updates do not change it. -/
def pendingSnapshot (s : List BlockRecord) : List BlockRecord :=
  sortByBlockId (s.filter (fun r => r.depth.isNone))

/-- The `while` loop of `organize_blockchain` over an explicit snapshot
list: each snapshot row is processed once, against the current store. -/
def organizeBody (s : List BlockRecord) (P : List BlockRecord) : List BlockRecord :=
  P.foldl (fun t r => organizeStep t r.blockId r.prevHash) s

/-- `postgresql_storage::organize_blockchain` (source lines 203-289). -/
def organize_blockchain (s : List BlockRecord) : List BlockRecord :=
  organizeBody s (pendingSnapshot s)

/-! ## Reachable store states

A store state is reachable when it arises from a single linked root
record by interleaving two external events: the surrounding storage
layer inserting a new block row (always with `depth`, `span_left`,
`span_right` all `NULL`, a fresh `SERIAL` `block_id` larger than all
existing ones, and a block hash that passed the duplicate check of
`store`, lines 164-168), and an invocation of `organize_blockchain`. -/

/-- A freshly inserted block row: pending, with a strictly larger
`SERIAL` id and a hash no existing row has. -/
def pendingFresh (s : List BlockRecord) (r : BlockRecord) : Prop :=
  r.depth = none ∧ r.spanLeft = none ∧ r.spanRight = none ∧
    ∀ x ∈ s, x.blockId < r.blockId ∧ x.hash ≠ r.hash

inductive Reachable (root : BlockRecord) : List BlockRecord → Prop
  | init (d c : Nat) (hd : root.depth = some d) (hl : root.spanLeft = some c)
      (hr : root.spanRight = some c) : Reachable root [root]
  | add {s : List BlockRecord} {r : BlockRecord} (hs : Reachable root s)
      (hf : pendingFresh s r) : Reachable root (s ++ [r])
  | organize {s : List BlockRecord} (hs : Reachable root s) :
      Reachable root (organize_blockchain s)

/-- Ancestry along `prev_hash` chains, restricted to linked records, as
in the claims: the transitive closure of "is the linked parent of". -/
inductive Ancestor (s : List BlockRecord) : BlockRecord → BlockRecord → Prop
  | parent {a b : BlockRecord} (ha : a ∈ s) (hb : b ∈ s)
      (hda : a.depth.isSome) (hdb : b.depth.isSome) (hp : b.prevHash = a.hash) :
      Ancestor s a b
  | trans {a b c : BlockRecord} (h1 : Ancestor s a b) (h2 : Ancestor s b c) :
      Ancestor s a c

/-! ## Invariants maintained by the organizer -/

/-- Every row is either fully pending (all three organizer columns
`NULL`) or linked with `span_left = span_right = m`, for one common
value `m` across the whole store. -/
def SpanEq (m : Nat) (s : List BlockRecord) : Prop :=
  ∀ r ∈ s, (r.depth = none ∧ r.spanLeft = none ∧ r.spanRight = none) ∨
    ∃ d, r.depth = some d ∧ r.spanLeft = some m ∧ r.spanRight = some m

/-- `block_id`s strictly increase along the store list (`SERIAL`
order). -/
def IdStrict (s : List BlockRecord) : Prop :=
  List.Pairwise (fun a b => a.blockId < b.blockId) s

/-- Every linked row other than the root has a linked parent row one
depth up. -/
def ParentLink (root : BlockRecord) (s : List BlockRecord) : Prop :=
  ∀ r ∈ s, ∀ d, r.depth = some d → r.hash = root.hash ∨
    ∃ p, p ∈ s ∧ p.hash = r.prevHash ∧ ∃ d2, p.depth = some d2 ∧ d = d2 + 1

/-- The conjunction of store invariants propagated through
reachability. -/
def StoreInv (root : BlockRecord) (s : List BlockRecord) : Prop :=
  IdStrict s ∧ (∃ m, SpanEq m s) ∧ ParentLink root s

/-! ## A linear chain store, for the convergence claim

Chain record `i` (`0 ≤ i ≤ k`) has hash `i + 1` and parent hash `i`
(so record `i + 1` is the unique child of record `i`, record `0` is the
root, and the root's parent hash `0` matches no record).  `block_id`s
are assigned by an arbitrary function `ids` (injective on `0..k`, the
`SERIAL` reality), so the arrival order — the order of the organizer's
snapshot scan — is an arbitrary permutation of the chain order.  The
first `j + 1` records are linked with `depth = i` and chain id `c`; the
rest are pending. -/

def natRange (s n : Nat) : List Nat :=
  match n with
  | 0 => []
  | n + 1 => s :: natRange (s + 1) n

def chainRec (ids : Nat → Nat) (c j i : Nat) : BlockRecord :=
  { blockId := ids i, hash := i + 1, prevHash := i,
    depth := if i ≤ j then some i else none,
    spanLeft := if i ≤ j then some c else none,
    spanRight := if i ≤ j then some c else none }

def chainStore (ids : Nat → Nat) (c k j : Nat) : List BlockRecord :=
  (natRange 0 (k + 1)).map (chainRec ids c j)

/-- `ids` assigns distinct `block_id`s to the chain records `0..k`. -/
def chainIds (k : Nat) (ids : Nat → Nat) : Prop :=
  ∀ i1 i2, i1 ≤ k → i2 ≤ k → ids i1 = ids i2 → i1 = i2

/-- How far the linked prefix of the chain advances when the snapshot
rows (as chain indices) are processed in the order `T`, starting from
prefix `m`: a row extends the chain exactly when it is the next chain
index `m + 1`; any other pending row finds no linked parent and is
skipped. -/
def foldExtend (T : List Nat) (m : Nat) : Nat :=
  T.foldl (fun m2 t => if t = m2 + 1 then m2 + 1 else m2) m

/-! ## Hex serialization (source lines 13-34)

`std::string` is modelled as `List Nat` of byte values; `32` is the
space character, `48`-`57` the digits, `97`-`102` the letters `a`-`f`. -/

/-- One hex digit, lower case, as produced by `std::hex` output. -/
def hexDigit (n : Nat) : Nat :=
  if n < 10 then 48 + n else 87 + n

/-- Minimal hex representation of `n` (most significant digit first),
as produced by `operator<<` on an `int`; fuel-structural so that it
computes by `rfl`. -/
def toHexCore : Nat → Nat → List Nat
  | 0, _ => []
  | fuel + 1, n =>
    if n < 16 then [hexDigit n]
    else toHexCore fuel (n / 16) ++ [hexDigit (n % 16)]

def toHexMin (n : Nat) : List Nat :=
  toHexCore (n + 1) n

/-- `std::setw(2)` with `std::setfill('0')`: pad the front with `'0'`
to a minimum width of two. -/
def toHexW2 (n : Nat) : List Nat :=
  if (toHexMin n).length < 2 then 48 :: toHexMin n else toHexMin n

/-- `serialize_bytes` (source lines 13-24): write every value as
two-(or-more-)digit hex followed by one space, then `resize` away the
final character (the trailing space). -/
def serialize_bytes (data : List Nat) : List Nat :=
  ((data.map (fun v => toHexW2 v ++ [32])).flatten).dropLast

/-- Numeric value of one hex-digit byte. -/
def hexVal (c : Nat) : Nat :=
  if c ≤ 57 then c - 48 else c - 87

/-- Value of one whitespace-free hex token, as read by `operator>>`
with the stream's `std::hex` base. -/
def parseHex (tok : List Nat) : Nat :=
  tok.foldl (fun a c => a * 16 + hexVal c) 0

def splitTokensAux : List Nat → List Nat → List (List Nat)
  | [], acc => if acc.isEmpty then [] else [acc.reverse]
  | c :: cs, acc =>
    if c == 32 then
      if acc.isEmpty then splitTokensAux cs []
      else acc.reverse :: splitTokensAux cs []
    else splitTokensAux cs (c :: acc)

/-- The maximal space-separated tokens of a byte string. -/
def splitTokens (s : List Nat) : List (List Nat) :=
  splitTokensAux s []

/-- `deserialize_bytes` (source lines 26-34).  The loop
`for (int val; ss.good(); ss >> val) stack.push_back(val);` pushes
*before* it reads: the first pushed element is the uninitialized `val`
(modelled by the free parameter `junk`, truncated to a byte by the
`uint8_t` conversion), and each extraction that exhausts the stream
sets `eofbit`, so the loop exits without pushing the value it just
read.  Hence on a string of space-separated hex tokens with no trailing
space (the shape `serialize_bytes` produces) the last token is read but
never pushed; when a trailing space is present the final extraction
stops before it, the stream is still good, and every token is pushed. -/
def deserialize_bytes (junk : Nat) (s : List Nat) : List Nat :=
  let vals := (splitTokens s).map (fun t => parseHex t % 256)
  junk % 256 :: (if s.getLast? == some 32 then vals else vals.dropLast)

/-! ## Relational model of `store(net::message::block, ...)`

(source lines 61-147 and 156-196).  The external types
`net::message::*`, `operation`, and the external hash functions
`hash_block_header`/`hash_transaction` (declared in headers outside
this file) are modelled structurally; the two hash functions are passed
in as parameters.  `opcode_to_string` is external as well; the opcode
is stored as its numeric key, which is faithful for everything the
claims ask (row counts and equality of states). -/

structure Operation where
  code : Nat
  data : List Nat
deriving DecidableEq

structure TxInput where
  inputScript : List Operation
  hash : List Nat
  sequence : Nat
deriving DecidableEq

structure TxOutput where
  outputScript : List Operation
  value : Nat
deriving DecidableEq

structure Transaction where
  version : Nat
  locktime : Nat
  inputs : List TxInput
  outputs : List TxOutput
deriving DecidableEq

structure Block where
  version : Nat
  prevBlock : List Nat
  merkleRoot : List Nat
  timestamp : Nat
  bits : Nat
  nonce : Nat
  transactions : List Transaction
deriving DecidableEq

structure OperationRow where
  opcode : Nat
  scriptId : Nat
  data : Option (List Nat)
deriving DecidableEq

structure InputRow where
  parentId : Nat
  indexInParent : Nat
  scriptId : Nat
  previousOutputHash : List Nat
  sequence : Nat
deriving DecidableEq

structure OutputRow where
  parentId : Nat
  indexInParent : Nat
  scriptId : Nat
  value : Nat
deriving DecidableEq

structure TransactionRow where
  transactionId : Nat
  transactionHash : List Nat
  version : Nat
  locktime : Nat
deriving DecidableEq

structure BlockRow where
  blockId : Nat
  blockHash : List Nat
  version : Nat
  prevBlockHash : List Nat
  merkle : List Nat
  whenCreated : Nat
  bitsHead : Nat
  bitsBody : Nat
  nonce : Nat
deriving DecidableEq

structure ParentRow where
  transactionId : Nat
  blockId : Nat
  indexInBlock : Nat
deriving DecidableEq

/-- The tables touched by the block insertion path, plus the `SERIAL` /
sequence counters that hand out ids. -/
structure DB where
  blocks : List BlockRow
  transactions : List TransactionRow
  inputs : List InputRow
  outputs : List OutputRow
  operationRows : List OperationRow
  transactionsParents : List ParentRow
  scriptSeq : Nat
  txSeq : Nat
  blockSeq : Nat
deriving DecidableEq

/-- `insert(operation, script_id)` (source lines 61-81): one row into
`operations`, with `NULL` data for an empty operand. -/
def insertOperation (db : DB) (op : Operation) (scriptId : Nat) : DB :=
  { db with operationRows := db.operationRows ++
      [{ opcode := op.code, scriptId := scriptId,
         data := if op.data.length = 0 then none else some (serialize_bytes op.data) }] }

/-- `insert_script` (source lines 83-91): draw a fresh id from
`script_sequence`, then insert every operation under it. -/
def insert_script (db : DB) (ops : List Operation) : DB × Nat :=
  let scriptId := db.scriptSeq
  (ops.foldl (fun d op => insertOperation d op scriptId)
    { db with scriptSeq := db.scriptSeq + 1 }, scriptId)

/-- `insert(transaction_input, ...)` (source lines 93-109). -/
def insertInput (db : DB) (inp : TxInput) (txId idx : Nat) : DB :=
  let p := insert_script db inp.inputScript
  { p.1 with inputs := p.1.inputs ++
      [{ parentId := txId, indexInParent := idx, scriptId := p.2,
         previousOutputHash := serialize_bytes inp.hash, sequence := inp.sequence }] }

/-- `insert(transaction_output, ...)` (source lines 111-126). -/
def insertOutput (db : DB) (outp : TxOutput) (txId idx : Nat) : DB :=
  let p := insert_script db outp.outputScript
  { p.1 with outputs := p.1.outputs ++
      [{ parentId := txId, indexInParent := idx, scriptId := p.2, value := outp.value }] }

/-- `insert(transaction)` (source lines 128-147): the transaction row
(`RETURNING transaction_id` modelled by the `txSeq` counter), then all
inputs and outputs with their positions. -/
def insertTransaction (hashTx : Transaction → List Nat) (db : DB) (tx : Transaction) :
    DB × Nat :=
  let txId := db.txSeq
  let db1 : DB := { db with
    transactions := db.transactions ++
      [{ transactionId := txId, transactionHash := serialize_bytes (hashTx tx),
         version := tx.version, locktime := tx.locktime }],
    txSeq := db.txSeq + 1 }
  let db2 := tx.inputs.enum.foldl (fun d p => insertInput d p.2 txId p.1) db1
  (tx.outputs.enum.foldl (fun d p => insertOutput d p.2 txId p.1) db2, txId)

/-- Loop body of the transaction loop of `store(block, ...)` (source
lines 185-194): insert the transaction, then the block-transaction
mapping row. -/
def storeTxStep (hashTx : Transaction → List Nat) (blockId : Nat) (d : DB)
    (p : Nat × Transaction) : DB :=
  let q := insertTransaction hashTx d p.2
  { q.1 with transactionsParents := q.1.transactionsParents ++
      [{ transactionId := q.2, blockId := blockId, indexInBlock := p.1 }] }

/-- `store(net::message::block, handle_store)` (source lines 156-196).
The result's second component records the handler call: `none` when
`handle_store` was never invoked, `some false` when it was invoked with
argument `false`.  The duplicate check is
`SELECT 1 FROM blocks WHERE block_hash=?` on the serialized header
hash; on a hit the function returns with no writes and no handler
call. -/
def newBlockRow (hashBlockHeader : Block → List Nat) (db : DB) (b : Block) : BlockRow :=
  { blockId := db.blockSeq, blockHash := serialize_bytes (hashBlockHeader b),
    version := b.version, prevBlockHash := serialize_bytes b.prevBlock,
    merkle := serialize_bytes b.merkleRoot, whenCreated := b.timestamp,
    bitsHead := b.bits / 2 ^ 24, bitsBody := b.bits % 2 ^ 24, nonce := b.nonce }

def store_block (hashBlockHeader : Block → List Nat)
    (hashTx : Transaction → List Nat) (db : DB) (b : Block) : DB × Option Bool :=
  if db.blocks.any (fun row => row.blockHash == serialize_bytes (hashBlockHeader b)) then
    (db, none)
  else
    let db1 : DB := { db with
      blocks := db.blocks ++ [newBlockRow hashBlockHeader db b],
      blockSeq := db.blockSeq + 1 }
    (b.transactions.enum.foldl (storeTxStep hashTx db.blockSeq) db1, some false)

/-! ## Concrete stores used by witnesses and counterexamples -/

/-- A linked root: `depth = 0`, interval `(0, 0)`, hash `1`. -/
def rootRec : BlockRecord := ⟨0, 1, 0, some 0, some 0, some 0⟩

/-- A pending child of the root (hash `2`, parent hash `1`). -/
def childPending : BlockRecord := ⟨1, 2, 1, none, none, none⟩

/-- The child after the organizer links it. -/
def childLinked : BlockRecord := ⟨1, 2, 1, some 1, some 0, some 0⟩

/-- Scenario 2 of the specification, one step in: root and `B1` linked
on chain id `0`, and a pending fork block `B2` whose parent is the
root. -/
def forkStore : List BlockRecord :=
  [⟨0, 1, 0, some 0, some 0, some 0⟩,
   ⟨1, 2, 1, some 1, some 0, some 0⟩,
   ⟨2, 3, 1, none, none, none⟩]

/-- Root linked, with two pending children `B1` (id `1`) and `B2`
(id `2`), both with parent hash `1`: a fork arriving in one batch. -/
def forkBatchStore : List BlockRecord :=
  [⟨0, 1, 0, some 0, some 0, some 0⟩,
   ⟨1, 2, 1, none, none, none⟩,
   ⟨2, 3, 1, none, none, none⟩]

/-- Root linked; record id `1` is a pending grandchild (parent hash
`3`), record id `2` a pending child (parent hash `1`): the chain order
is the reverse of the id order. -/
def reversedChainStore : List BlockRecord :=
  [⟨0, 1, 0, some 0, some 0, some 0⟩,
   ⟨1, 2, 3, none, none, none⟩,
   ⟨2, 3, 1, none, none, none⟩]

/-- `forkStore` plus a pending extension `Y` (id `3`) of the linked tip
`B1`: in one invocation the fork block `X` (id `2`) triggers the
allocator shift and `Y` is then linked. -/
def forkPlusTipStore : List BlockRecord :=
  [⟨0, 1, 0, some 0, some 0, some 0⟩,
   ⟨1, 2, 1, some 1, some 0, some 0⟩,
   ⟨2, 3, 1, none, none, none⟩,
   ⟨3, 4, 2, none, none, none⟩]

/-- A one-block database whose stored hash repr is
`serialize_bytes [5]`. -/
def dupRow : BlockRow :=
  { blockId := 7, blockHash := serialize_bytes [5], version := 1,
    prevBlockHash := [], merkle := [], whenCreated := 0, bitsHead := 0,
    bitsBody := 0, nonce := 0 }

def dupDB : DB :=
  { blocks := [dupRow], transactions := [], inputs := [], outputs := [],
    operationRows := [], transactionsParents := [], scriptSeq := 0,
    txSeq := 0, blockSeq := 8 }

def emptyDB : DB :=
  { blocks := [], transactions := [], inputs := [], outputs := [],
    operationRows := [], transactionsParents := [], scriptSeq := 0,
    txSeq := 0, blockSeq := 0 }

def sampleBlock : Block :=
  { version := 1, prevBlock := [0], merkleRoot := [0], timestamp := 0,
    bits := 0, nonce := 0, transactions := [] }

/-! ## Basic facts about the fork check -/

theorem descendantTest_iff (pl pr pd : Nat) (r : BlockRecord) :
    descendantTest pl pr pd r = true ↔
      ∃ d l rr, r.depth = some d ∧ r.spanLeft = some l ∧ r.spanRight = some rr ∧
        pl ≤ l ∧ rr ≤ pr ∧ pd < d := by
  cases hl : r.spanLeft <;> cases hr : r.spanRight <;> cases hd : r.depth <;>
    simp [descendantTest, hl, hr, hd, and_assoc]

/-- C8: the fork check used by the organizer returns true exactly when
some record with set depth has its interval inclusively contained in
the candidate parent's interval (`pl ≤ span_left` and
`span_right ≤ pr`) and a depth strictly greater than the parent's;
records with unset columns never count, and containment is by `≤`, not
an exact interval match. -/
theorem c8_fork_check_iff (s : List BlockRecord) (pl pr pd : Nat) :
    hasDescendant s pl pr pd = true ↔
      ∃ r, r ∈ s ∧ ∃ d l rr, r.depth = some d ∧ r.spanLeft = some l ∧
        r.spanRight = some rr ∧ pl ≤ l ∧ rr ≤ pr ∧ pd < d := by
  unfold hasDescendant
  rw [List.any_eq_true]
  constructor
  · rintro ⟨r, hr, ht⟩
    exact ⟨r, hr, (descendantTest_iff pl pr pd r).mp ht⟩
  · rintro ⟨r, hr, ht⟩
    exact ⟨r, hr, (descendantTest_iff pl pr pd r).mpr ht⟩

/-- C10: the hex round trip of the source is broken.  On input
`[5, 7]`, `serialize_bytes` produces the byte string `"05 07"`, and
`deserialize_bytes` returns `[junk % 256, 5]` — its first element is
the uninitialized `val` pushed before the first extraction and the last
byte is dropped — whatever the uninitialized value `junk` was; so the
result never equals `[5, 7]`. -/
theorem c10_roundtrip_fails (junk : Nat) :
    deserialize_bytes junk (serialize_bytes [5, 7]) ≠ [5, 7] := by
  intro h
  have he : deserialize_bytes junk (serialize_bytes [5, 7]) = junk % 256 :: [5] := rfl
  rw [he] at h
  have h2 : ([5] : List Nat) = [7] := (List.cons_eq_cons.mp h).2
  exact absurd (List.cons_eq_cons.mp h2).1 (by decide)

/-- C2: evaluation of the fork scenario of the specification.  Starting
from root `R` (depth `0`, interval `(0,0)`), linked child `B1` (depth
`1`, interval `(0,0)`) and pending `B2` with `prev_hash = R.hash`: the
first invocation shifts the intervals of both `R` *and* `B1` to
`(1,1)` (the allocator's `span_left >= slot` condition includes the
parent itself), and the second invocation detects the same fork again
and shifts everything to `(2,2)`, leaving `B2` unlinked with `R`'s
interval never becoming `(0,1)`. -/
theorem c2_fork_never_links :
    organize_blockchain forkStore =
      [⟨0, 1, 0, some 0, some 1, some 1⟩,
       ⟨1, 2, 1, some 1, some 1, some 1⟩,
       ⟨2, 3, 1, none, none, none⟩] ∧
    organize_blockchain (organize_blockchain forkStore) =
      [⟨0, 1, 0, some 0, some 2, some 2⟩,
       ⟨1, 2, 1, some 1, some 2, some 2⟩,
       ⟨2, 3, 1, none, none, none⟩] := by
  constructor <;> rfl

/-- C3 counterexample: in `forkBatchStore` every pending record's
parent chain resolves to the linked root and the longest unresolved
chain has length one, yet after one invocation — and likewise after a
second — the fork record with `block_id = 2` still has unset depth. -/
theorem c3_counterexample :
    (organize_blockchain forkBatchStore).get? 2 =
      some ⟨2, 3, 1, none, none, none⟩ ∧
    (organize_blockchain (organize_blockchain forkBatchStore)).get? 2 =
      some ⟨2, 3, 1, none, none, none⟩ := by
  constructor <;> rfl

/-- C4 counterexample: on `reversedChainStore` (a pending grandchild
whose `block_id` precedes its pending parent's) the first invocation
links only the child, and the second invocation links the grandchild —
a state change with no new pending records between the calls. -/
theorem c4_counterexample :
    organize_blockchain (organize_blockchain reversedChainStore) ≠
      organize_blockchain reversedChainStore := by
  decide

/-- C5 counterexample: in `forkPlusTipStore` the record with
`block_id = 2` triggers the fork branch (its processing step is exactly
the allocator shift at slot `0`), yet the invocation as a whole is not
only that shift: it additionally links the record with `block_id = 3`. -/
theorem c5_counterexample :
    hasDescendant forkPlusTipStore 0 0 0 = true ∧
    organizeStep forkPlusTipStore 2 1 = forkPlusTipStore.map (shiftRecord 0) ∧
    organize_blockchain forkPlusTipStore ≠ forkPlusTipStore.map (shiftRecord 0) := by
  refine ⟨rfl, rfl, ?_⟩
  decide

/-- C5 (fork-handling step semantics): when the organizer processes a
snapshot row for which a linked candidate parent `p` is found and the
fork check fires, that processing step takes `slot = p.span_right` and
maps every row through the allocator shift: every set `span_left` at or
beyond `slot` is incremented by exactly one, every set `span_right` at
or beyond `slot` likewise, and nothing else changes — ids, hashes and
depths are untouched, unset columns stay unset, and a fully pending row
(in particular the record being processed) is left exactly as it was,
its depth and interval still unset. -/
theorem c5_fork_step_is_shift (s : List BlockRecord) (bid ph : Nat) (p : BlockRecord)
    (hfind : findLinkedParent s ph = some p)
    (hdesc : hasDescendant s (p.spanLeft.getD 0) (p.spanRight.getD 0) (p.depth.getD 0) = true) :
    organizeStep s bid ph = s.map (shiftRecord (p.spanRight.getD 0)) ∧
    ∀ r ∈ s,
      (shiftRecord (p.spanRight.getD 0) r).depth = r.depth ∧
      (shiftRecord (p.spanRight.getD 0) r).blockId = r.blockId ∧
      (shiftRecord (p.spanRight.getD 0) r).hash = r.hash ∧
      (shiftRecord (p.spanRight.getD 0) r).prevHash = r.prevHash ∧
      (∀ v, r.spanLeft = some v → (shiftRecord (p.spanRight.getD 0) r).spanLeft =
        some (if p.spanRight.getD 0 ≤ v then v + 1 else v)) ∧
      (r.spanLeft = none → (shiftRecord (p.spanRight.getD 0) r).spanLeft = none) ∧
      (∀ v, r.spanRight = some v → (shiftRecord (p.spanRight.getD 0) r).spanRight =
        some (if p.spanRight.getD 0 ≤ v then v + 1 else v)) ∧
      (r.spanRight = none → (shiftRecord (p.spanRight.getD 0) r).spanRight = none) ∧
      (r.depth = none → r.spanLeft = none → r.spanRight = none →
        shiftRecord (p.spanRight.getD 0) r = r) := by
  constructor
  · simp [organizeStep, hfind, hdesc]
  · intro r _
    refine ⟨rfl, rfl, rfl, rfl, ?_, ?_, ?_, ?_, ?_⟩
    · intro v hv
      simp only [shiftRecord, shiftSpan, hv]
      split <;> rfl
    · intro hv
      simp [shiftRecord, shiftSpan, hv]
    · intro v hv
      simp only [shiftRecord, shiftSpan, hv]
      split <;> rfl
    · intro hv
      simp [shiftRecord, shiftSpan, hv]
    · intro _ h2 h3
      cases r
      simp_all [shiftRecord, shiftSpan]

/-- Witness for C5 at the concrete fork scenario `forkStore`: the
candidate parent of the row with `block_id = 2` is the root, the fork
check fires, and the step is exactly the shift at slot `0`. -/
theorem c5_witness :
    hasDescendant forkStore 0 0 0 = true ∧
    organizeStep forkStore 2 1 = forkStore.map (shiftRecord 0) :=
  ⟨by decide,
   (c5_fork_step_is_shift forkStore 2 1 ⟨0, 1, 0, some 0, some 0, some 0⟩
      (by decide) (by decide)).1⟩

/-! ## Record-level facts about the organizer's row updates -/

theorem shiftRecord_blockId (slot : Nat) (r : BlockRecord) :
    (shiftRecord slot r).blockId = r.blockId := rfl

theorem shiftRecord_hash (slot : Nat) (r : BlockRecord) :
    (shiftRecord slot r).hash = r.hash := rfl

theorem shiftRecord_prevHash (slot : Nat) (r : BlockRecord) :
    (shiftRecord slot r).prevHash = r.prevHash := rfl

theorem shiftRecord_depth (slot : Nat) (r : BlockRecord) :
    (shiftRecord slot r).depth = r.depth := rfl

theorem linkRecord_blockId (bid d c : Nat) (r : BlockRecord) :
    (linkRecord bid d c r).blockId = r.blockId := by
  unfold linkRecord
  split <;> rfl

theorem linkRecord_hash (bid d c : Nat) (r : BlockRecord) :
    (linkRecord bid d c r).hash = r.hash := by
  unfold linkRecord
  split <;> rfl

theorem linkRecord_prevHash (bid d c : Nat) (r : BlockRecord) :
    (linkRecord bid d c r).prevHash = r.prevHash := by
  unfold linkRecord
  split <;> rfl

theorem linkRecord_of_ne (bid d c : Nat) (r : BlockRecord) (h : r.blockId ≠ bid) :
    linkRecord bid d c r = r := by
  simp [linkRecord, h]

theorem linkRecord_of_eq (bid d c : Nat) (r : BlockRecord) (h : r.blockId = bid) :
    linkRecord bid d c r =
      { r with depth := some d, spanLeft := some c, spanRight := some c } := by
  simp [linkRecord, h]

theorem findLinkedParent_facts {s : List BlockRecord} {ph : Nat} {p : BlockRecord}
    (hfp : findLinkedParent s ph = some p) :
    p ∈ s ∧ p.hash = ph ∧ ∃ d0, p.depth = some d0 := by
  refine ⟨List.mem_of_find?_eq_some hfp, ?_, ?_⟩
  · have h := List.find?_some hfp
    simpa using (Bool.and_eq_true_iff.mp h).1
  · have h := List.find?_some hfp
    exact Option.isSome_iff_exists.mp (Bool.and_eq_true_iff.mp h).2

/-! ## The common-interval invariant `SpanEq` -/

theorem spanEq_shiftRecord {m : Nat} {s : List BlockRecord} (h : SpanEq m s) :
    SpanEq (m + 1) (s.map (shiftRecord m)) := by
  intro r' hr'
  rcases List.mem_map.mp hr' with ⟨r, hr, rfl⟩
  rcases h r hr with ⟨h1, h2, h3⟩ | ⟨d, h1, h2, h3⟩
  · left
    simp [shiftRecord, shiftSpan, h1, h2, h3]
  · right
    exact ⟨d, by simp [shiftRecord, shiftSpan, h1, h2, h3]⟩

theorem spanEq_linkRecord {m : Nat} {s : List BlockRecord} (h : SpanEq m s)
    (bid d : Nat) : SpanEq m (s.map (linkRecord bid d m)) := by
  intro r' hr'
  rcases List.mem_map.mp hr' with ⟨r, hr, rfl⟩
  by_cases hb : r.blockId = bid
  · rw [linkRecord_of_eq _ _ _ _ hb]
    exact Or.inr ⟨d, rfl, rfl, rfl⟩
  · rw [linkRecord_of_ne _ _ _ _ hb]
    exact h r hr

theorem spanEq_organizeStep {m : Nat} {s : List BlockRecord} (h : SpanEq m s)
    (bid ph : Nat) : ∃ m2, SpanEq m2 (organizeStep s bid ph) := by
  cases hfp : findLinkedParent s ph with
  | none => exact ⟨m, by simpa [organizeStep, hfp] using h⟩
  | some p =>
    obtain ⟨hpmem, hphash, d0, hpd⟩ := findLinkedParent_facts hfp
    rcases h p hpmem with ⟨h1, _, _⟩ | ⟨d, h1, h2, h3⟩
    · rw [hpd] at h1
      cases h1
    · by_cases hd : hasDescendant s (p.spanLeft.getD 0) (p.spanRight.getD 0)
        (p.depth.getD 0) = true
      · refine ⟨m + 1, ?_⟩
        have heq : organizeStep s bid ph = s.map (shiftRecord (p.spanRight.getD 0)) := by
          simp [organizeStep, hfp, hd]
        have er : p.spanRight.getD 0 = m := by
          rw [h3]
          rfl
        rw [heq, er]
        exact spanEq_shiftRecord h
      · refine ⟨m, ?_⟩
        have heq : organizeStep s bid ph =
            s.map (linkRecord bid (p.depth.getD 0 + 1) (p.spanLeft.getD 0)) := by
          simp [organizeStep, hfp, hd]
        have el : p.spanLeft.getD 0 = m := by
          rw [h2]
          rfl
        have ed : p.depth.getD 0 = d := by
          rw [h1]
          rfl
        rw [heq, el, ed]
        exact spanEq_linkRecord h bid (d + 1)

theorem spanEq_organizeBody (P : List BlockRecord) :
    ∀ {s : List BlockRecord} {m : Nat}, SpanEq m s →
      ∃ m2, SpanEq m2 (organizeBody s P) := by
  induction P with
  | nil => exact fun h => ⟨_, h⟩
  | cons r T ih =>
    intro s m h
    rcases spanEq_organizeStep h r.blockId r.prevHash with ⟨m1, h1⟩
    exact ih h1

theorem spanEq_of_reachable {root : BlockRecord} {s : List BlockRecord}
    (h : Reachable root s) : ∃ m, SpanEq m s := by
  induction h with
  | init d c hd hl hr =>
    refine ⟨c, fun r hr' => ?_⟩
    rcases List.mem_singleton.mp hr' with rfl
    exact Or.inr ⟨d, hd, hl, hr⟩
  | add hs hf ih =>
    rcases ih with ⟨m, hm⟩
    refine ⟨m, fun r' hr' => ?_⟩
    rcases List.mem_append.mp hr' with h1 | h1
    · exact hm r' h1
    · rcases List.mem_singleton.mp h1 with rfl
      exact Or.inl ⟨hf.1, hf.2.1, hf.2.2.1⟩
  | organize hs ih =>
    rcases ih with ⟨m, hm⟩
    exact spanEq_organizeBody _ hm

theorem ancestor_mem {s : List BlockRecord} {a b : BlockRecord}
    (h : Ancestor s a b) : a ∈ s ∧ b ∈ s := by
  induction h with
  | parent ha hb _ _ _ => exact ⟨ha, hb⟩
  | trans _ _ ih1 ih2 => exact ⟨ih1.1, ih2.2⟩

/-- C1 (containment invariant): in every store state reachable from a
single linked root by inserting fresh pending rows and invoking
`organize_blockchain`, any two linked records `a` and `b` with `a` an
ancestor of `b` along the `prev_hash`/`depth` chains satisfy
`a.span_left ≤ b.span_left` and `b.span_right ≤ a.span_right`.  (On the
code this holds in a degenerate way: a reachable store always has all
of its linked intervals equal to one common point `(m, m)`.) -/
theorem c1_containment {root : BlockRecord} {s : List BlockRecord}
    {a b : BlockRecord} (hreach : Reachable root s) (hanc : Ancestor s a b) :
    ∀ la ra lb rb, a.spanLeft = some la → a.spanRight = some ra →
      b.spanLeft = some lb → b.spanRight = some rb → la ≤ lb ∧ rb ≤ ra := by
  intro la ra lb rb hla hra hlb hrb
  obtain ⟨m, hm⟩ := spanEq_of_reachable hreach
  obtain ⟨hma, hmb⟩ := ancestor_mem hanc
  rcases hm a hma with ⟨_, h2, _⟩ | ⟨d, _, h2, h3⟩
  · rw [hla] at h2
    cases h2
  · rcases hm b hmb with ⟨_, g2, _⟩ | ⟨d', _, g2, g3⟩
    · rw [hlb] at g2
      cases g2
    · rw [hla] at h2
      rw [hra] at h3
      rw [hlb] at g2
      rw [hrb] at g3
      injection h2 with e1
      injection h3 with e2
      injection g2 with e3
      injection g3 with e4
      omega

/-- Witness for C1: the root and its organizer-linked child in the
reachable state `organize_blockchain [rootRec, childPending]`, with
intervals `(0,0)` and `(0,0)`. -/
theorem c1_witness :
    Ancestor (organize_blockchain [rootRec, childPending]) rootRec childLinked ∧
      (0 ≤ 0 ∧ 0 ≤ 0) :=
  have hanc : Ancestor (organize_blockchain [rootRec, childPending]) rootRec childLinked :=
    Ancestor.parent (by decide) (by decide) (by decide) (by decide) (by decide)
  ⟨hanc,
   c1_containment
     (Reachable.organize (Reachable.add (Reachable.init 0 0 rfl rfl rfl)
       ⟨rfl, rfl, rfl, by decide⟩))
     hanc 0 0 0 0 rfl rfl rfl rfl⟩

/-- C7 (no-fork assertion safety): in any state reached from a
reachable store by a prefix of an invocation's per-row steps, whenever
a linked candidate parent is found and the fork check reports no
descendant (the no-fork branch is about to run), the parent has
`span_left = span_right`, so `BITCOIN_ASSERT(parent_span_left ==
parent_span_right)` cannot fire and the invocation never aborts
there. -/
theorem c7_no_fork_assert_safe {root : BlockRecord} {s : List BlockRecord}
    (hreach : Reachable root s) (L : List BlockRecord) (ph : Nat) (p : BlockRecord)
    (hfind : findLinkedParent (organizeBody s L) ph = some p)
    (hnofork : hasDescendant (organizeBody s L) (p.spanLeft.getD 0)
      (p.spanRight.getD 0) (p.depth.getD 0) = false) :
    p.spanLeft = p.spanRight := by
  obtain ⟨m, hm0⟩ := spanEq_of_reachable hreach
  obtain ⟨m1, hm⟩ := spanEq_organizeBody L hm0
  obtain ⟨hpmem, _, d0, hpd⟩ := findLinkedParent_facts hfind
  rcases hm p hpmem with ⟨h1, _, _⟩ | ⟨d, _, h2, h3⟩
  · rw [hpd] at h1
    cases h1
  · rw [h2, h3]

/-- Witness for C7: in the store `[rootRec]` (reachable by `init`), the
empty step prefix, parent hash `1`: the candidate parent is the root,
the fork check is false, and indeed its `span_left = span_right`. -/
theorem c7_witness :
    findLinkedParent (organizeBody [rootRec] []) 1 = some rootRec ∧
      rootRec.spanLeft = rootRec.spanRight :=
  ⟨by decide,
   @c7_no_fork_assert_safe rootRec [rootRec] (Reachable.init 0 0 rfl rfl rfl) [] 1 rootRec
     (by decide) (by decide)⟩

/-! ## Identity-preservation of the organizer's updates -/

theorem organizeStep_map_blockId (s : List BlockRecord) (bid ph : Nat) :
    (organizeStep s bid ph).map (fun r => r.blockId) = s.map (fun r => r.blockId) := by
  cases hfp : findLinkedParent s ph with
  | none => simp [organizeStep, hfp]
  | some p =>
    by_cases hd : hasDescendant s (p.spanLeft.getD 0) (p.spanRight.getD 0)
      (p.depth.getD 0) = true
    · have heq : organizeStep s bid ph = s.map (shiftRecord (p.spanRight.getD 0)) := by
        simp [organizeStep, hfp, hd]
      rw [heq, List.map_map]
      rfl
    · have heq : organizeStep s bid ph =
          s.map (linkRecord bid (p.depth.getD 0 + 1) (p.spanLeft.getD 0)) := by
        simp [organizeStep, hfp, hd]
      rw [heq, List.map_map]
      exact List.map_congr_left fun a _ => linkRecord_blockId _ _ _ a

theorem idStrict_organizeStep {s : List BlockRecord} (h : IdStrict s)
    (bid ph : Nat) : IdStrict (organizeStep s bid ph) := by
  have h2 : List.Pairwise (· < ·) (s.map (fun r => r.blockId)) :=
    List.pairwise_map.mpr h
  rw [← organizeStep_map_blockId s bid ph] at h2
  exact List.pairwise_map.mp h2

theorem organizeStep_member {s : List BlockRecord} {bid ph : Nat} {y : BlockRecord}
    (hy : y ∈ organizeStep s bid ph) :
    ∃ x, x ∈ s ∧ y.blockId = x.blockId ∧ y.hash = x.hash ∧ y.prevHash = x.prevHash ∧
      (x.blockId ≠ bid → y.depth = x.depth) := by
  cases hfp : findLinkedParent s ph with
  | none =>
    rw [show organizeStep s bid ph = s by simp [organizeStep, hfp]] at hy
    exact ⟨y, hy, rfl, rfl, rfl, fun _ => rfl⟩
  | some p =>
    by_cases hd : hasDescendant s (p.spanLeft.getD 0) (p.spanRight.getD 0)
      (p.depth.getD 0) = true
    · rw [show organizeStep s bid ph = s.map (shiftRecord (p.spanRight.getD 0)) by
        simp [organizeStep, hfp, hd]] at hy
      rcases List.mem_map.mp hy with ⟨x, hx, rfl⟩
      exact ⟨x, hx, rfl, rfl, rfl, fun _ => rfl⟩
    · rw [show organizeStep s bid ph =
          s.map (linkRecord bid (p.depth.getD 0 + 1) (p.spanLeft.getD 0)) by
        simp [organizeStep, hfp, hd]] at hy
      rcases List.mem_map.mp hy with ⟨x, hx, rfl⟩
      exact ⟨x, hx, linkRecord_blockId _ _ _ x, linkRecord_hash _ _ _ x,
        linkRecord_prevHash _ _ _ x,
        fun hne => by rw [linkRecord_of_ne _ _ _ _ hne]⟩

/-! ## The parent-depth invariant `ParentLink` -/

theorem parentLink_organizeStep {root : BlockRecord} {s : List BlockRecord}
    {bid ph : Nat} (hP : ParentLink root s)
    (hpend : ∀ x ∈ s, x.blockId = bid → x.depth = none ∧ x.prevHash = ph) :
    ParentLink root (organizeStep s bid ph) := by
  cases hfp : findLinkedParent s ph with
  | none =>
    rw [show organizeStep s bid ph = s by simp [organizeStep, hfp]]
    exact hP
  | some p =>
    obtain ⟨hpmem, hphash, d0, hpd⟩ := findLinkedParent_facts hfp
    have hpbid : p.blockId ≠ bid := by
      intro hb
      rcases hpend p hpmem hb with ⟨h1, _⟩
      rw [hpd] at h1
      cases h1
    by_cases hd : hasDescendant s (p.spanLeft.getD 0) (p.spanRight.getD 0)
      (p.depth.getD 0) = true
    · rw [show organizeStep s bid ph = s.map (shiftRecord (p.spanRight.getD 0)) by
        simp [organizeStep, hfp, hd]]
      intro r' hr' d hd'
      rcases List.mem_map.mp hr' with ⟨r, hr, rfl⟩
      rcases hP r hr d hd' with hroot | ⟨q, hq, hqh, d2, hqd, hdd⟩
      · exact Or.inl hroot
      · exact Or.inr ⟨shiftRecord (p.spanRight.getD 0) q,
          List.mem_map_of_mem _ hq, hqh, d2, hqd, hdd⟩
    · rw [show organizeStep s bid ph =
          s.map (linkRecord bid (p.depth.getD 0 + 1) (p.spanLeft.getD 0)) by
        simp [organizeStep, hfp, hd]]
      intro r' hr' d hd'
      rcases List.mem_map.mp hr' with ⟨r, hr, rfl⟩
      by_cases hb : r.blockId = bid
      · rcases hpend r hr hb with ⟨hrd, hrph⟩
        rw [linkRecord_of_eq _ _ _ _ hb] at hd'
        have hdval : d = p.depth.getD 0 + 1 := (Option.some.inj hd').symm
        refine Or.inr ⟨p, List.mem_map.mpr ⟨p, hpmem, linkRecord_of_ne _ _ _ _ hpbid⟩,
          ?_, d0, hpd, ?_⟩
        · rw [linkRecord_prevHash, hphash, hrph]
        · rw [hdval, hpd]
          rfl
      · rw [linkRecord_of_ne _ _ _ _ hb] at hd' ⊢
        rcases hP r hr d hd' with hroot | ⟨q, hq, hqh, d2, hqd, hdd⟩
        · exact Or.inl hroot
        · have hqbid : q.blockId ≠ bid := by
            intro hqb
            rcases hpend q hq hqb with ⟨h1, _⟩
            rw [hqd] at h1
            cases h1
          exact Or.inr ⟨q,
            List.mem_map.mpr ⟨q, hq, linkRecord_of_ne _ _ _ _ hqbid⟩, hqh, d2, hqd, hdd⟩

/-! ## The pending snapshot -/

theorem insertById_perm (r : BlockRecord) (l : List BlockRecord) :
    List.Perm (insertById r l) (r :: l) := by
  induction l with
  | nil => exact List.Perm.refl _
  | cons x xs ih =>
    unfold insertById
    by_cases h : r.blockId ≤ x.blockId
    · rw [if_pos h]
    · rw [if_neg h]
      exact (List.Perm.cons x ih).trans (List.Perm.swap r x xs)

theorem sortByBlockId_perm (l : List BlockRecord) : List.Perm (sortByBlockId l) l := by
  induction l with
  | nil => exact List.Perm.refl _
  | cons x xs ih =>
    exact (insertById_perm x (sortByBlockId xs)).trans (List.Perm.cons x ih)

theorem pendingSnapshot_mem {s : List BlockRecord} {r : BlockRecord}
    (hr : r ∈ pendingSnapshot s) : r ∈ s ∧ r.depth = none := by
  have h1 : r ∈ s.filter (fun r => r.depth.isNone) :=
    (sortByBlockId_perm _).mem_iff.mp hr
  rcases List.mem_filter.mp h1 with ⟨h2, h3⟩
  exact ⟨h2, Option.isNone_iff_eq_none.mp h3⟩

theorem idStrict_unique {s : List BlockRecord} (h : IdStrict s) :
    ∀ x ∈ s, ∀ y ∈ s, x.blockId = y.blockId → x = y := by
  induction s with
  | nil => intro x hx; cases hx
  | cons a t ih =>
    rcases List.pairwise_cons.mp h with ⟨ha, ht⟩
    intro x hx y hy hxy
    rcases List.mem_cons.mp hx with rfl | hx' <;> rcases List.mem_cons.mp hy with rfl | hy'
    · rfl
    · exact absurd hxy (Nat.ne_of_lt (ha y hy'))
    · exact absurd hxy.symm (Nat.ne_of_lt (ha x hx'))
    · exact ih ht x hx' y hy' hxy

theorem pendingSnapshot_nodup {s : List BlockRecord} (h : IdStrict s) :
    ((pendingSnapshot s).map (fun r => r.blockId)).Nodup := by
  have hids : (s.map (fun r => r.blockId)).Nodup :=
    (List.pairwise_map.mpr h).imp Nat.ne_of_lt
  have hsub : ((s.filter (fun r => r.depth.isNone)).map (fun r => r.blockId)).Nodup :=
    ((List.filter_sublist s).map _).nodup hids
  exact ((sortByBlockId_perm _).map _).nodup_iff.mpr hsub

/-! ## The combined invariant through a full invocation -/

theorem storeInv_organizeBody {root : BlockRecord} (P : List BlockRecord) :
    ∀ s : List BlockRecord, StoreInv root s →
      (P.map (fun r => r.blockId)).Nodup →
      (∀ r ∈ P, ∀ x ∈ s, x.blockId = r.blockId →
        x.depth = none ∧ x.prevHash = r.prevHash) →
      StoreInv root (organizeBody s P) := by
  induction P with
  | nil => exact fun s h _ _ => h
  | cons r T ih =>
    intro s hInv hnd hside
    obtain ⟨hid, ⟨m, hm⟩, hPL⟩ := hInv
    have hpend : ∀ x ∈ s, x.blockId = r.blockId →
        x.depth = none ∧ x.prevHash = r.prevHash :=
      fun x hx hxb => hside r (List.mem_cons_self r T) x hx hxb
    have hInv1 : StoreInv root (organizeStep s r.blockId r.prevHash) := by
      refine ⟨idStrict_organizeStep hid _ _, ?_, parentLink_organizeStep hPL hpend⟩
      exact spanEq_organizeStep hm r.blockId r.prevHash
    have hnd1 : (T.map (fun r => r.blockId)).Nodup := (List.nodup_cons.mp hnd).2
    have hside1 : ∀ r' ∈ T, ∀ x ∈ organizeStep s r.blockId r.prevHash,
        x.blockId = r'.blockId → x.depth = none ∧ x.prevHash = r'.prevHash := by
      intro r' hr' x hx hxb
      obtain ⟨x0, hx0, hbid, _, hprev, hdep⟩ := organizeStep_member hx
      have hx0b : x0.blockId = r'.blockId := hbid ▸ hxb
      obtain ⟨h1, h2⟩ := hside r' (List.mem_cons_of_mem r hr') x0 hx0 hx0b
      have hne : x0.blockId ≠ r.blockId := by
        rw [hx0b]
        intro heq2
        exact (List.nodup_cons.mp hnd).1
          (List.mem_map.mpr ⟨r', hr', heq2⟩)
      exact ⟨by rw [hdep hne]; exact h1, by rw [hprev]; exact h2⟩
    exact ih _ hInv1 hnd1 hside1

theorem storeInv_organize {root : BlockRecord} {s : List BlockRecord}
    (h : StoreInv root s) : StoreInv root (organize_blockchain s) := by
  refine storeInv_organizeBody (pendingSnapshot s) s h (pendingSnapshot_nodup h.1) ?_
  intro r hr x hx hxb
  obtain ⟨hrs, hrd⟩ := pendingSnapshot_mem hr
  have hxr : x = r := idStrict_unique h.1 x hx r hrs hxb
  subst hxr
  exact ⟨hrd, rfl⟩

theorem storeInv_of_reachable {root : BlockRecord} {s : List BlockRecord}
    (h : Reachable root s) : StoreInv root s := by
  induction h with
  | init d c hd hl hr =>
    refine ⟨List.pairwise_singleton _ _, ⟨c, ?_⟩, ?_⟩
    · intro r hr'
      rcases List.mem_singleton.mp hr' with rfl
      exact Or.inr ⟨d, hd, hl, hr⟩
    · intro r hr' d' _
      rcases List.mem_singleton.mp hr' with rfl
      exact Or.inl rfl
  | add hs hf ih =>
    obtain ⟨hid, ⟨m, hm⟩, hPL⟩ := ih
    refine ⟨?_, ⟨m, ?_⟩, ?_⟩
    · rw [IdStrict, List.pairwise_append]
      refine ⟨hid, List.pairwise_singleton _ _, ?_⟩
      intro a ha b hb
      rcases List.mem_singleton.mp hb with rfl
      exact (hf.2.2.2 a ha).1
    · intro r' hr'
      rcases List.mem_append.mp hr' with h1 | h1
      · exact hm r' h1
      · rcases List.mem_singleton.mp h1 with rfl
        exact Or.inl ⟨hf.1, hf.2.1, hf.2.2.1⟩
    · intro r' hr' d' hd'
      rcases List.mem_append.mp hr' with h1 | h1
      · rcases hPL r' h1 d' hd' with hroot | ⟨q, hq, hqh, d2, hqd, hdd⟩
        · exact Or.inl hroot
        · exact Or.inr ⟨q, List.mem_append_left _ hq, hqh, d2, hqd, hdd⟩
      · rcases List.mem_singleton.mp h1 with rfl
        rw [hf.1] at hd'
        cases hd'
  | organize hs ih => exact storeInv_organize ih

/-- C6 (depth invariant): in every reachable store state, every linked
record other than the root (every record the organizer linked) has a
parent record — some record whose `hash` equals its `prev_hash` — that
is itself linked, and its depth is exactly the parent's depth plus
one. -/
theorem c6_depth_parent {root : BlockRecord} {s : List BlockRecord}
    {r : BlockRecord} {d : Nat} (hreach : Reachable root s) (hr : r ∈ s)
    (hd : r.depth = some d) (hne : r.hash ≠ root.hash) :
    ∃ p, p ∈ s ∧ p.hash = r.prevHash ∧ ∃ d2, p.depth = some d2 ∧ d = d2 + 1 := by
  obtain ⟨_, _, hPL⟩ := storeInv_of_reachable hreach
  rcases hPL r hr d hd with hroot | hout
  · exact absurd hroot hne
  · exact hout

/-- Witness for C6: the organizer-linked child in
`organize_blockchain [rootRec, childPending]` has the root as linked
parent, one depth up. -/
theorem c6_witness :
    ∃ p, p ∈ organize_blockchain [rootRec, childPending] ∧
      p.hash = childLinked.prevHash ∧ ∃ d2, p.depth = some d2 ∧ 1 = d2 + 1 :=
  @c6_depth_parent rootRec (organize_blockchain [rootRec, childPending])
    childLinked 1
    (Reachable.organize (Reachable.add (Reachable.init 0 0 rfl rfl rfl)
      ⟨rfl, rfl, rfl, by decide⟩))
    (by decide) rfl (by decide)

/-! ## Per-position preservation of linked records -/

theorem organizeStep_length (s : List BlockRecord) (bid ph : Nat) :
    (organizeStep s bid ph).length = s.length := by
  cases hfp : findLinkedParent s ph with
  | none => simp [organizeStep, hfp]
  | some p =>
    by_cases hd : hasDescendant s (p.spanLeft.getD 0) (p.spanRight.getD 0)
      (p.depth.getD 0) = true
    · simp [organizeStep, hfp, hd]
    · simp [organizeStep, hfp, hd]

theorem organizeStep_get (s : List BlockRecord) (bid ph : Nat) (i : Nat)
    (hi : i < s.length) (hj : i < (organizeStep s bid ph).length) :
    ((organizeStep s bid ph).get ⟨i, hj⟩).blockId = (s.get ⟨i, hi⟩).blockId ∧
    ((organizeStep s bid ph).get ⟨i, hj⟩).hash = (s.get ⟨i, hi⟩).hash ∧
    ((organizeStep s bid ph).get ⟨i, hj⟩).prevHash = (s.get ⟨i, hi⟩).prevHash ∧
    ((s.get ⟨i, hi⟩).blockId ≠ bid →
      ((organizeStep s bid ph).get ⟨i, hj⟩).depth = (s.get ⟨i, hi⟩).depth) := by
  cases hfp : findLinkedParent s ph with
  | none =>
    have heq : organizeStep s bid ph = s := by simp [organizeStep, hfp]
    refine ⟨?_, ?_, ?_, fun _ => ?_⟩ <;> simp [heq]
  | some p =>
    by_cases hd : hasDescendant s (p.spanLeft.getD 0) (p.spanRight.getD 0)
      (p.depth.getD 0) = true
    · have heq : organizeStep s bid ph = s.map (shiftRecord (p.spanRight.getD 0)) := by
        simp [organizeStep, hfp, hd]
      refine ⟨?_, ?_, ?_, fun _ => ?_⟩ <;>
        simp [heq, List.get_eq_getElem, List.getElem_map, shiftRecord_blockId,
          shiftRecord_hash, shiftRecord_prevHash, shiftRecord_depth]
    · have heq : organizeStep s bid ph =
          s.map (linkRecord bid (p.depth.getD 0 + 1) (p.spanLeft.getD 0)) := by
        simp [organizeStep, hfp, hd]
      refine ⟨?_, ?_, ?_, fun hne => ?_⟩
      · simp [heq, List.get_eq_getElem, List.getElem_map, linkRecord_blockId]
      · simp [heq, List.get_eq_getElem, List.getElem_map, linkRecord_hash]
      · simp [heq, List.get_eq_getElem, List.getElem_map, linkRecord_prevHash]
      · simp only [heq, List.get_eq_getElem, List.getElem_map]
        rw [linkRecord_of_ne]
        simpa using hne

theorem organizeBody_length (P : List BlockRecord) :
    ∀ s : List BlockRecord, (organizeBody s P).length = s.length := by
  induction P with
  | nil => exact fun s => rfl
  | cons r T ih =>
    intro s
    exact (ih (organizeStep s r.blockId r.prevHash)).trans
      (organizeStep_length s r.blockId r.prevHash)

theorem organizeBody_get_depth (P : List BlockRecord) :
    ∀ (s : List BlockRecord) (i : Nat) (hi : i < s.length) (d : Nat),
      (s.get ⟨i, hi⟩).depth = some d →
      (∀ r ∈ P, (s.get ⟨i, hi⟩).blockId ≠ r.blockId) →
      ∃ hj : i < (organizeBody s P).length,
        ((organizeBody s P).get ⟨i, hj⟩).depth = some d ∧
        ((organizeBody s P).get ⟨i, hj⟩).blockId = (s.get ⟨i, hi⟩).blockId ∧
        ((organizeBody s P).get ⟨i, hj⟩).hash = (s.get ⟨i, hi⟩).hash ∧
        ((organizeBody s P).get ⟨i, hj⟩).prevHash = (s.get ⟨i, hi⟩).prevHash := by
  induction P with
  | nil => exact fun s i hi d hd _ => ⟨hi, hd, rfl, rfl, rfl⟩
  | cons r T ih =>
    intro s i hi d hd hne
    have hj1 : i < (organizeStep s r.blockId r.prevHash).length := by
      rw [organizeStep_length]
      exact hi
    obtain ⟨hbid, hhash, hprev, hdep⟩ := organizeStep_get s r.blockId r.prevHash i hi hj1
    have hd1 : ((organizeStep s r.blockId r.prevHash).get ⟨i, hj1⟩).depth = some d := by
      rw [hdep (hne r (List.mem_cons_self r T))]
      exact hd
    have hne1 : ∀ r' ∈ T,
        ((organizeStep s r.blockId r.prevHash).get ⟨i, hj1⟩).blockId ≠ r'.blockId := by
      intro r' hr'
      rw [hbid]
      exact hne r' (List.mem_cons_of_mem r hr')
    obtain ⟨hj, h1, h2, h3, h4⟩ := ih _ i hj1 d hd1 hne1
    exact ⟨hj, h1, h2.trans hbid, h3.trans hhash, h4.trans hprev⟩

/-- C4 (amended): an invocation of the organizer never un-links a
linked record and never changes its depth, id, hash or parent hash —
re-running cannot corrupt what is already linked.  (Full idempotence
fails: see the counterexample.) -/
theorem c4_linked_records_stable (s : List BlockRecord) (hid : IdStrict s)
    (i : Nat) (hi : i < s.length) (d : Nat) (hd : (s.get ⟨i, hi⟩).depth = some d) :
    ∃ hj : i < (organize_blockchain s).length,
      ((organize_blockchain s).get ⟨i, hj⟩).depth = some d ∧
      ((organize_blockchain s).get ⟨i, hj⟩).blockId = (s.get ⟨i, hi⟩).blockId ∧
      ((organize_blockchain s).get ⟨i, hj⟩).hash = (s.get ⟨i, hi⟩).hash ∧
      ((organize_blockchain s).get ⟨i, hj⟩).prevHash = (s.get ⟨i, hi⟩).prevHash := by
  refine organizeBody_get_depth (pendingSnapshot s) s i hi d hd ?_
  intro r hr hb
  obtain ⟨hrs, hrd⟩ := pendingSnapshot_mem hr
  have hxr : s.get ⟨i, hi⟩ = r := idStrict_unique hid _ (s.get_mem i hi) r hrs hb
  rw [hxr, hrd] at hd
  cases hd

/-- Witness for C4 (amended) at the store `[rootRec, childPending]`:
the linked root at position `0` survives the invocation untouched. -/
theorem c4_witness :
    ∃ hj : 0 < (organize_blockchain [rootRec, childPending]).length,
      ((organize_blockchain [rootRec, childPending]).get ⟨0, hj⟩).depth = some 0 ∧
      ((organize_blockchain [rootRec, childPending]).get
        ⟨0, hj⟩).blockId = ([rootRec, childPending].get ⟨0, by decide⟩).blockId ∧
      ((organize_blockchain [rootRec, childPending]).get
        ⟨0, hj⟩).hash = ([rootRec, childPending].get ⟨0, by decide⟩).hash ∧
      ((organize_blockchain [rootRec, childPending]).get
        ⟨0, hj⟩).prevHash = ([rootRec, childPending].get ⟨0, by decide⟩).prevHash :=
  c4_linked_records_stable [rootRec, childPending]
    (by unfold IdStrict; decide) 0 (by decide) 0 rfl

/-! ## The linear chain store and convergence -/

theorem mem_natRange : ∀ {n s i : Nat}, i ∈ natRange s n ↔ s ≤ i ∧ i < s + n := by
  intro n
  induction n with
  | zero =>
    intro s i
    simp only [natRange, List.not_mem_nil, false_iff]
    omega
  | succ n ih =>
    intro s i
    simp only [natRange, List.mem_cons, ih]
    omega

theorem natRange_append : ∀ (a s b : Nat),
    natRange s a ++ natRange (s + a) b = natRange s (a + b) := by
  intro a
  induction a with
  | zero =>
    intro s b
    simp [natRange]
  | succ a ih =>
    intro s b
    have h1 : a + 1 + b = (a + b) + 1 := by omega
    have h2 : s + (a + 1) = (s + 1) + a := by omega
    rw [h1]
    show s :: (natRange (s + 1) a ++ natRange (s + (a + 1)) b) =
      s :: natRange (s + 1) (a + b)
    rw [h2, ih (s + 1) b]

theorem pairwise_lt_natRange : ∀ (n s : Nat), (natRange s n).Pairwise (· < ·) := by
  intro n
  induction n with
  | zero => exact fun s => List.Pairwise.nil
  | succ n ih =>
    intro s
    refine List.pairwise_cons.mpr ⟨?_, ih (s + 1)⟩
    intro b hb
    have := (mem_natRange.mp hb).1
    omega

theorem find?_natRange (p : Nat → Bool) :
    ∀ (n s j : Nat), s ≤ j → j < s + n → p j = true →
      (∀ i, s ≤ i → i < j → p i = false) → (natRange s n).find? p = some j := by
  intro n
  induction n with
  | zero =>
    intro s j h1 h2
    omega
  | succ n ih =>
    intro s j h1 h2 hj hlt
    show ((s :: natRange (s + 1) n).find? p) = some j
    by_cases hs : s = j
    · subst hs
      rw [List.find?_cons_of_pos _ hj]
    · have hslt : s < j := Nat.lt_of_le_of_ne h1 hs
      have hps : p s = false := hlt s (Nat.le_refl s) hslt
      rw [List.find?_cons_of_neg _ (by simp [hps])]
      exact ih (s + 1) j hslt (by omega) hj
        (fun i hi1 hi2 => hlt i (Nat.le_of_succ_le hi1) hi2)

theorem chainRec_eq_of_ne (ids : Nat → Nat) (c j i : Nat) (h : i ≠ j + 1) :
    chainRec ids c (j + 1) i = chainRec ids c j i := by
  by_cases hij : i ≤ j
  · simp [chainRec, hij, Nat.le_succ_of_le hij]
  · have h2 : ¬ i ≤ j + 1 := by omega
    simp [chainRec, hij, h2]

theorem findLinkedParent_chain (ids : Nat → Nat) (c k j : Nat) (hj : j ≤ k) :
    findLinkedParent (chainStore ids c k j) (j + 1) = some (chainRec ids c j j) := by
  unfold findLinkedParent chainStore
  rw [List.find?_map]
  have hfind : (natRange 0 (k + 1)).find?
      ((fun r => r.hash == (j + 1) && r.depth.isSome) ∘ chainRec ids c j) = some j := by
    apply find?_natRange
    · exact Nat.zero_le j
    · omega
    · simp [chainRec]
    · intro i _ hij
      have hne : ¬ (i + 1 = j + 1) := by omega
      simp [chainRec, hne]
      omega
  rw [hfind]
  rfl

theorem findLinkedParent_chain_none (ids : Nat → Nat) (c k j t : Nat)
    (ht : j + 1 < t) :
    findLinkedParent (chainStore ids c k j) t = none := by
  unfold findLinkedParent chainStore
  rw [List.find?_eq_none]
  intro r hr
  rcases List.mem_map.mp hr with ⟨i, _, rfl⟩
  by_cases hit : i + 1 = t
  · have hij : ¬ i ≤ j := by omega
    simp [chainRec, hit, hij]
  · simp [chainRec, hit]

theorem any_map_comp {α β : Type} (f : α → β) (p : β → Bool) :
    ∀ l : List α, (l.map f).any p = l.any (p ∘ f) := by
  intro l
  induction l with
  | nil => rfl
  | cons x xs ih => simp [List.any_cons, ih]

theorem hasDescendant_chain (ids : Nat → Nat) (c k j : Nat) :
    hasDescendant (chainStore ids c k j) c c j = false := by
  unfold hasDescendant chainStore
  rw [any_map_comp, List.any_eq_false]
  intro i _
  by_cases hij : i ≤ j
  · simp only [Function.comp_apply]
    rw [descendantTest_iff]
    rintro ⟨d, l, rr, hd, hl, hr, _, _, hlt⟩
    rw [show (chainRec ids c j i).depth = some i by simp [chainRec, hij]] at hd
    injection hd with hd
    omega
  · simp only [Function.comp_apply]
    rw [descendantTest_iff]
    rintro ⟨d, l, rr, hd, hl, hr, _⟩
    rw [show (chainRec ids c j i).depth = none by simp [chainRec, hij]] at hd
    cases hd

theorem linkRecord_chainRec (ids : Nat → Nat) (c k j i : Nat)
    (hinj : chainIds k ids) (hjk : j + 1 ≤ k) (hik : i ≤ k) :
    linkRecord (ids (j + 1)) (j + 1) c (chainRec ids c j i) =
      chainRec ids c (j + 1) i := by
  by_cases hi : i = j + 1
  · subst hi
    have hno : ¬ (j + 1 ≤ j) := by omega
    simp [linkRecord, chainRec, hno]
  · have hne : (chainRec ids c j i).blockId ≠ ids (j + 1) := by
      intro h
      exact hi (hinj i (j + 1) hik hjk h)
    rw [linkRecord_of_ne _ _ _ _ hne]
    exact (chainRec_eq_of_ne ids c j i hi).symm

theorem organizeStep_chain_link (ids : Nat → Nat) (c k j : Nat)
    (hinj : chainIds k ids) (hj : j < k) :
    organizeStep (chainStore ids c k j) (ids (j + 1)) (j + 1) =
      chainStore ids c k (j + 1) := by
  have hfp := findLinkedParent_chain ids c k j (Nat.le_of_lt hj)
  have e1 : (chainRec ids c j j).spanLeft = some c := by simp [chainRec]
  have e2 : (chainRec ids c j j).spanRight = some c := by simp [chainRec]
  have e3 : (chainRec ids c j j).depth = some j := by simp [chainRec]
  have heq : organizeStep (chainStore ids c k j) (ids (j + 1)) (j + 1) =
      (chainStore ids c k j).map (linkRecord (ids (j + 1)) (j + 1) c) := by
    simp [organizeStep, hfp, e1, e2, e3, hasDescendant_chain ids c k j]
  rw [heq]
  unfold chainStore
  rw [List.map_map]
  refine List.map_congr_left fun i hi => ?_
  have hik : i ≤ k := by
    have := (mem_natRange.mp hi).2
    omega
  exact linkRecord_chainRec ids c k j i hinj (by omega) hik

theorem organizeStep_chain_skip (ids : Nat → Nat) (c k j t : Nat)
    (ht : j + 1 < t) :
    organizeStep (chainStore ids c k j) (ids t) t = chainStore ids c k j := by
  simp [organizeStep, findLinkedParent_chain_none ids c k j t ht]

theorem foldExtend_ge : ∀ (T : List Nat) (m : Nat), m ≤ foldExtend T m := by
  intro T
  induction T with
  | nil => exact fun m => Nat.le_refl m
  | cons t T ih =>
    intro m
    show m ≤ foldExtend T (if t = m + 1 then m + 1 else m)
    by_cases h : t = m + 1
    · rw [if_pos h]
      exact Nat.le_trans (Nat.le_succ m) (ih (m + 1))
    · rw [if_neg h]
      exact ih m

theorem foldExtend_le : ∀ (T : List Nat) (m k : Nat), (∀ t ∈ T, t ≤ k) → m ≤ k →
    foldExtend T m ≤ k := by
  intro T
  induction T with
  | nil => exact fun m k _ h => h
  | cons t T ih =>
    intro m k hT hm
    show foldExtend T (if t = m + 1 then m + 1 else m) ≤ k
    by_cases h : t = m + 1
    · rw [if_pos h]
      refine ih (m + 1) k (fun u hu => hT u (List.mem_cons_of_mem _ hu)) ?_
      have := hT t (List.mem_cons_self t T)
      omega
    · rw [if_neg h]
      exact ih m k (fun u hu => hT u (List.mem_cons_of_mem _ hu)) hm

theorem foldExtend_mem_succ : ∀ (T : List Nat) (m : Nat), (m + 1) ∈ T →
    m + 1 ≤ foldExtend T m := by
  intro T
  induction T with
  | nil =>
    intro m h
    cases h
  | cons t T ih =>
    intro m hmem
    show m + 1 ≤ foldExtend T (if t = m + 1 then m + 1 else m)
    by_cases h : t = m + 1
    · rw [if_pos h]
      exact foldExtend_ge T (m + 1)
    · rw [if_neg h]
      rcases List.mem_cons.mp hmem with h1 | h1
      · exact absurd h1.symm h
      · exact ih m h1

theorem organizeBody_chain (ids : Nat → Nat) (c k : Nat) (hinj : chainIds k ids) :
    ∀ (T : List Nat) (P : List BlockRecord) (m : Nat),
      T.Nodup → (∀ t ∈ T, m < t ∧ t ≤ k) →
      P.map (fun r => (r.blockId, r.prevHash)) = T.map (fun t => (ids t, t)) →
      organizeBody (chainStore ids c k m) P = chainStore ids c k (foldExtend T m) := by
  intro T
  induction T with
  | nil =>
    intro P m _ _ hP
    have hPnil : P = [] := by
      have : P.map (fun r => (r.blockId, r.prevHash)) = [] := by simpa using hP
      simpa using this
    subst hPnil
    rfl
  | cons t T ih =>
    intro P m hnd hbound hP
    cases P with
    | nil => simp at hP
    | cons r Q =>
      simp only [List.map_cons] at hP
      obtain ⟨h1, h2⟩ := List.cons_eq_cons.mp hP
      have hb : r.blockId = ids t := congrArg Prod.fst h1
      have hp : r.prevHash = t := congrArg Prod.snd h1
      obtain ⟨hmt, htk⟩ := hbound t (List.mem_cons_self t T)
      show organizeBody (organizeStep (chainStore ids c k m) r.blockId r.prevHash) Q =
        chainStore ids c k (foldExtend (t :: T) m)
      rw [hb, hp]
      by_cases hcase : t = m + 1
      · subst hcase
        rw [organizeStep_chain_link ids c k m hinj (by omega)]
        rw [show foldExtend ((m + 1) :: T) m = foldExtend T (m + 1) from by
          simp [foldExtend]]
        refine ih Q (m + 1) (List.nodup_cons.mp hnd).2 ?_ h2
        intro u hu
        obtain ⟨h3, h4⟩ := hbound u (List.mem_cons_of_mem _ hu)
        have hne : u ≠ m + 1 := by
          intro he
          exact (List.nodup_cons.mp hnd).1 (he ▸ hu)
        exact ⟨by omega, h4⟩
      · rw [organizeStep_chain_skip ids c k m t (by omega)]
        rw [show foldExtend (t :: T) m = foldExtend T m from by
          simp [foldExtend, hcase]]
        exact ih Q m (List.nodup_cons.mp hnd).2
          (fun u hu => hbound u (List.mem_cons_of_mem _ hu)) h2

theorem pendingSnapshot_chain_perm (ids : Nat → Nat) (c k j : Nat) (hj : j ≤ k) :
    List.Perm (pendingSnapshot (chainStore ids c k j))
      ((natRange (j + 1) (k - j)).map (chainRec ids c j)) := by
  unfold pendingSnapshot chainStore
  rw [List.filter_map]
  have hsplit : natRange 0 (k + 1) = natRange 0 (j + 1) ++ natRange (j + 1) (k - j) := by
    have h1 : (j + 1) + (k - j) = k + 1 := by omega
    have h2 : (0 : Nat) + (j + 1) = j + 1 := by omega
    rw [← h1, ← natRange_append (j + 1) 0 (k - j), h2]
  rw [hsplit, List.filter_append]
  have hnil : (natRange 0 (j + 1)).filter
      ((fun r => r.depth.isNone) ∘ chainRec ids c j) = [] := by
    rw [List.filter_eq_nil_iff]
    intro i hi
    have hij : i ≤ j := by
      have := (mem_natRange.mp hi).2
      omega
    simp [chainRec, hij]
  have hself : (natRange (j + 1) (k - j)).filter
      ((fun r => r.depth.isNone) ∘ chainRec ids c j) = natRange (j + 1) (k - j) := by
    rw [List.filter_eq_self]
    intro i hi
    have hij : ¬ i ≤ j := by
      have := (mem_natRange.mp hi).1
      omega
    simp [chainRec, hij]
  rw [hnil, hself, List.nil_append]
  exact sortByBlockId_perm _

theorem organize_chain_step (ids : Nat → Nat) (c k j : Nat)
    (hinj : chainIds k ids) (hj : j < k) :
    ∃ j2, j < j2 ∧ j2 ≤ k ∧
      organize_blockchain (chainStore ids c k j) = chainStore ids c k j2 := by
  have hperm := pendingSnapshot_chain_perm ids c k j (Nat.le_of_lt hj)
  have hTperm : List.Perm ((pendingSnapshot (chainStore ids c k j)).map
      (fun r => r.prevHash)) (natRange (j + 1) (k - j)) := by
    have hmapped := hperm.map (fun r => r.prevHash)
    rw [List.map_map] at hmapped
    rw [show ((fun (r : BlockRecord) => r.prevHash) ∘ chainRec ids c j) =
      fun t => t from rfl] at hmapped
    rw [show (natRange (j + 1) (k - j)).map (fun t => t) =
      natRange (j + 1) (k - j) from List.map_id _] at hmapped
    exact hmapped
  have hTnodup : ((pendingSnapshot (chainStore ids c k j)).map
      (fun r => r.prevHash)).Nodup :=
    hTperm.nodup_iff.mpr ((pairwise_lt_natRange _ _).imp Nat.ne_of_lt)
  have hTbound : ∀ t ∈ (pendingSnapshot (chainStore ids c k j)).map
      (fun r => r.prevHash), j < t ∧ t ≤ k := by
    intro t ht
    have := mem_natRange.mp (hTperm.mem_iff.mp ht)
    omega
  have hTmem : (j + 1) ∈ (pendingSnapshot (chainStore ids c k j)).map
      (fun r => r.prevHash) :=
    hTperm.mem_iff.mpr (mem_natRange.mpr ⟨Nat.le_refl _, by omega⟩)
  have hpairs : (pendingSnapshot (chainStore ids c k j)).map
      (fun r => (r.blockId, r.prevHash)) =
      ((pendingSnapshot (chainStore ids c k j)).map (fun r => r.prevHash)).map
        (fun t => (ids t, t)) := by
    rw [List.map_map]
    refine List.map_congr_left fun r hr => ?_
    rcases List.mem_map.mp (hperm.mem_iff.mp hr) with ⟨t, _, rfl⟩
    rfl
  refine ⟨foldExtend ((pendingSnapshot (chainStore ids c k j)).map
      (fun r => r.prevHash)) j, ?_, ?_, ?_⟩
  · exact foldExtend_mem_succ _ j hTmem
  · exact foldExtend_le _ j k (fun t ht => (hTbound t ht).2) (Nat.le_of_lt hj)
  · exact organizeBody_chain ids c k hinj _ _ j hTnodup hTbound hpairs

theorem organize_chain_fixed (ids : Nat → Nat) (c k : Nat) :
    organize_blockchain (chainStore ids c k k) = chainStore ids c k k := by
  have hperm := pendingSnapshot_chain_perm ids c k k (Nat.le_refl k)
  have hnil : (natRange (k + 1) (k - k)).map (chainRec ids c k) = [] := by
    rw [Nat.sub_self]
    rfl
  rw [hnil] at hperm
  have hempty : pendingSnapshot (chainStore ids c k k) = [] := hperm.eq_nil
  show organizeBody (chainStore ids c k k) (pendingSnapshot (chainStore ids c k k)) =
    chainStore ids c k k
  rw [hempty]
  rfl

theorem organize_chain_iter (ids : Nat → Nat) (c k : Nat) (hinj : chainIds k ids) :
    ∀ (n j : Nat), j ≤ k → k ≤ j + n →
      organize_blockchain^[n] (chainStore ids c k j) = chainStore ids c k k := by
  intro n
  induction n with
  | zero =>
    intro j h1 h2
    have : j = k := by omega
    subst this
    rfl
  | succ n ih =>
    intro j h1 h2
    rw [Function.iterate_succ_apply]
    by_cases hj : j < k
    · obtain ⟨j2, hj2a, hj2b, heq⟩ := organize_chain_step ids c k j hinj hj
      rw [heq]
      exact ih j2 hj2b (by omega)
    · have hjk : j = k := by omega
      rw [hjk, organize_chain_fixed]
      exact ih k (Nat.le_refl k) (by omega)

/-- C3 (amended): for a store consisting of a single linked root and a
finite acyclic *linear* chain of `k` pending records hanging off it (no
forks) — with distinct `block_id`s assigned in an arbitrary arrival
order — repeated invocation bounded by the longest unresolved chain
length links every record: `k` invocations of `organize_blockchain`
leave every record with its depth set.  (Each invocation links at least
the first unlinked record in chain order, so the bound is `k` however
adversarial the id order; `k` invocations are really needed when ids
reverse the chain.)  With forks the original claim fails — see the
counterexample. -/
theorem c3_chain_converges (ids : Nat → Nat) (c k : Nat) (hinj : chainIds k ids) :
    organize_blockchain^[k] (chainStore ids c k 0) = chainStore ids c k k ∧
    ∀ r ∈ organize_blockchain^[k] (chainStore ids c k 0), r.depth.isSome := by
  have hmain := organize_chain_iter ids c k hinj k 0 (Nat.zero_le k) (by omega)
  refine ⟨hmain, ?_⟩
  rw [hmain]
  intro r hr
  rcases List.mem_map.mp hr with ⟨i, hi, rfl⟩
  have hik : i ≤ k := by
    have := (mem_natRange.mp hi).2
    omega
  simp [chainRec, hik]

/-- Witness for C3 at a chain of length `2` whose ids reverse the chain
order (root gets id `2`, its child id `1`, the grandchild id `0`): the
worst case, where each invocation links exactly one record and both
invocations are needed. -/
theorem c3_witness :
    organize_blockchain^[2] (chainStore (fun i => 2 - i) 0 2 0) =
      chainStore (fun i => 2 - i) 0 2 2 ∧
    ∀ r ∈ organize_blockchain^[2] (chainStore (fun i => 2 - i) 0 2 0),
      r.depth.isSome :=
  c3_chain_converges (fun i => 2 - i) 0 2
    (fun i1 i2 h1 h2 h3 => by simp only at h3; omega)

/-! ## Duplicate-block behaviour of `store(block, ...)` -/

theorem insertOperation_blocks (db : DB) (op : Operation) (sid : Nat) :
    (insertOperation db op sid).blocks = db.blocks := rfl

theorem insert_script_blocks (db : DB) (ops : List Operation) :
    (insert_script db ops).1.blocks = db.blocks := by
  unfold insert_script
  generalize hdb : ({ db with scriptSeq := db.scriptSeq + 1 } : DB) = db1
  have hb : db1.blocks = db.blocks := by rw [← hdb]
  clear hdb
  induction ops generalizing db1 with
  | nil => exact hb
  | cons op ops ih => exact ih _ (by rw [insertOperation_blocks]; exact hb)

theorem insertInput_blocks (db : DB) (inp : TxInput) (txId idx : Nat) :
    (insertInput db inp txId idx).blocks = db.blocks := by
  unfold insertInput
  exact insert_script_blocks db inp.inputScript

theorem insertOutput_blocks (db : DB) (outp : TxOutput) (txId idx : Nat) :
    (insertOutput db outp txId idx).blocks = db.blocks := by
  unfold insertOutput
  exact insert_script_blocks db outp.outputScript

theorem foldl_insertInput_blocks (txId : Nat) :
    ∀ (l : List (Nat × TxInput)) (db : DB),
      (l.foldl (fun d p => insertInput d p.2 txId p.1) db).blocks = db.blocks := by
  intro l
  induction l with
  | nil => exact fun db => rfl
  | cons x xs ih =>
    intro db
    rw [List.foldl_cons, ih, insertInput_blocks]

theorem foldl_insertOutput_blocks (txId : Nat) :
    ∀ (l : List (Nat × TxOutput)) (db : DB),
      (l.foldl (fun d p => insertOutput d p.2 txId p.1) db).blocks = db.blocks := by
  intro l
  induction l with
  | nil => exact fun db => rfl
  | cons x xs ih =>
    intro db
    rw [List.foldl_cons, ih, insertOutput_blocks]

theorem insertTransaction_blocks (hashTx : Transaction → List Nat) (db : DB)
    (tx : Transaction) : (insertTransaction hashTx db tx).1.blocks = db.blocks := by
  unfold insertTransaction
  rw [foldl_insertOutput_blocks, foldl_insertInput_blocks]

theorem storeTxStep_blocks (hashTx : Transaction → List Nat) (blockId : Nat)
    (d : DB) (p : Nat × Transaction) :
    (storeTxStep hashTx blockId d p).blocks = d.blocks := by
  unfold storeTxStep
  exact insertTransaction_blocks hashTx d p.2

theorem foldl_storeTxStep_blocks (hashTx : Transaction → List Nat) (blockId : Nat) :
    ∀ (l : List (Nat × Transaction)) (db : DB),
      (l.foldl (storeTxStep hashTx blockId) db).blocks = db.blocks := by
  intro l
  induction l with
  | nil => exact fun db => rfl
  | cons x xs ih =>
    intro db
    rw [List.foldl_cons, ih, storeTxStep_blocks]

/-- C9: `store(block, handle_store)` on a block whose (serialized)
header hash is already present in the `blocks` table returns with the
whole database unchanged — no block, transaction, input, output,
operation or mapping row is inserted, no sequence advances — and
without invoking the completion handler; the handler is invoked, with
argument `false`, exactly when the hash was absent, in which case
exactly one block row is appended. -/
theorem c9_store_block_duplicate (hB : Block → List Nat)
    (hT : Transaction → List Nat) (db : DB) (b : Block) :
    ((∃ row, row ∈ db.blocks ∧ row.blockHash = serialize_bytes (hB b)) →
      store_block hB hT db b = (db, none)) ∧
    ((store_block hB hT db b).2 = some false ↔
      ¬ ∃ row, row ∈ db.blocks ∧ row.blockHash = serialize_bytes (hB b)) ∧
    ((¬ ∃ row, row ∈ db.blocks ∧ row.blockHash = serialize_bytes (hB b)) →
      ∃ newRow, (store_block hB hT db b).1.blocks = db.blocks ++ [newRow]) := by
  have hiff : db.blocks.any (fun row => row.blockHash == serialize_bytes (hB b)) = true ↔
      ∃ row, row ∈ db.blocks ∧ row.blockHash = serialize_bytes (hB b) := by
    rw [List.any_eq_true]
    constructor
    · rintro ⟨row, h1, h2⟩
      exact ⟨row, h1, by simpa using h2⟩
    · rintro ⟨row, h1, h2⟩
      exact ⟨row, h1, by simpa using h2⟩
  by_cases hdup : db.blocks.any (fun row => row.blockHash == serialize_bytes (hB b)) = true
  · have heq : store_block hB hT db b = (db, none) := by
      unfold store_block
      rw [if_pos hdup]
    refine ⟨fun _ => heq, ?_, ?_⟩
    · rw [heq]
      simp only [Option.some.injEq]
      constructor
      · intro h
        cases h
      · intro h
        exact absurd (hiff.mp hdup) h
    · intro h
      exact absurd (hiff.mp hdup) h
  · have hno : ¬ ∃ row, row ∈ db.blocks ∧ row.blockHash = serialize_bytes (hB b) :=
      fun h => hdup (hiff.mpr h)
    have heq2 : (store_block hB hT db b).2 = some false := by
      unfold store_block
      rw [if_neg hdup]
    refine ⟨fun h => absurd h hno, ?_, fun _ => ?_⟩
    · rw [heq2]
      simp [hno]
    · refine ⟨newBlockRow hB db b, ?_⟩
      have hrun : (store_block hB hT db b).1 =
          b.transactions.enum.foldl (storeTxStep hT db.blockSeq)
            { db with
              blocks := db.blocks ++ [newBlockRow hB db b],
              blockSeq := db.blockSeq + 1 } := by
        unfold store_block
        rw [if_neg hdup]
      rw [hrun, foldl_storeTxStep_blocks]

/-- Witness for C9: a concrete duplicate (hash repr `"05"` already
stored in `dupDB`) is a complete no-op with no handler call, and the
same block against the empty database invokes the handler with
`false`. -/
theorem c9_witness :
    store_block (fun _ => [5]) (fun _ => [6]) dupDB sampleBlock = (dupDB, none) ∧
    (store_block (fun _ => [5]) (fun _ => [6]) emptyDB sampleBlock).2 = some false :=
  ⟨(c9_store_block_duplicate (fun _ => [5]) (fun _ => [6]) dupDB sampleBlock).1
      ⟨dupRow, by decide, rfl⟩,
   ((c9_store_block_duplicate (fun _ => [5]) (fun _ => [6]) emptyDB sampleBlock).2.1).mpr
      (by rintro ⟨row, hrow, _⟩; cases hrow)⟩
